import Mathlib

/-!
Verification development for the Chinese-to-English translation tooling
(`translator/apply_translations.py`, `translator/translate_googletranslate.py`,
`translator/translate_local.py`).

Strings are embedded as `List Char` (Python `str` is a sequence of Unicode
code points).  Python dicts are embedded as association lists with
insert-or-update semantics.  File- and network-bound operations are embedded
by abstracting the environment (decode results, translation backends) as
explicit parameters.
-/

/-- The text of a Python string: a list of Unicode code points. -/
abbrev Str := List Char

/-- A translation store: Python `Dict[str, str]` as an association list with
unique keys maintained by `dinsert`. -/
abbrev TransDict := List (Str × Str)

/-! ## Character classes

`translate_googletranslate.py` line 38 and the regex patterns at lines 174
and 178 use the three CJK ranges `一-鿿`, `㐀-䶿`,
`豈-﫿`. -/

/-- A character in one of the three declared CJK ranges
(`[一-鿿㐀-䶿豈-﫿]`). -/
def isCJKChar (c : Char) : Bool :=
  (0x4e00 ≤ c.toNat && c.toNat ≤ 0x9fff) ||
  (0x3400 ≤ c.toNat && c.toNat ≤ 0x4dbf) ||
  (0xf900 ≤ c.toNat && c.toNat ≤ 0xfaff)

/-- The seven Chinese punctuation characters appearing in pattern 1:
`，。、：；！？`. -/
def chinesePunctChars : List Char := ['，', '。', '、', '：', '；', '！', '？']

/-- Membership in the Chinese punctuation class of pattern 1. -/
def isChinesePunct (c : Char) : Bool := chinesePunctChars.contains c

/-- Python's regex class `\s` on `str` (CPython `Py_UNICODE_ISSPACE`): the
Unicode White_Space characters together with the separator controls
U+001C–U+001F. -/
def isRegexSpace (c : Char) : Bool :=
  (0x09 ≤ c.toNat && c.toNat ≤ 0x0d) ||
  (0x1c ≤ c.toNat && c.toNat ≤ 0x1f) || c.toNat == 0x20 ||
  c.toNat == 0x85 || c.toNat == 0xa0 || c.toNat == 0x1680 ||
  (0x2000 ≤ c.toNat && c.toNat ≤ 0x200a) ||
  c.toNat == 0x2028 || c.toNat == 0x2029 || c.toNat == 0x202f ||
  c.toNat == 0x205f || c.toNat == 0x3000

/-- Python's `str.strip()` whitespace class (`str.isspace`): the Unicode
White_Space characters plus the separator controls U+001C–U+001F. -/
def isStripSpace (c : Char) : Bool :=
  isRegexSpace c || (0x1c ≤ c.toNat && c.toNat ≤ 0x1f)

/-- A Latin letter (ASCII `A`–`Z` or `a`–`z`). -/
def isLatinLetter (c : Char) : Bool :=
  (0x41 ≤ c.toNat && c.toNat ≤ 0x5a) || (0x61 ≤ c.toNat && c.toNat ≤ 0x7a)

/-- The middle character class of pattern 1:
`[一-鿿㐀-䶿豈-﫿\s，。、：；！？]`. -/
def isPhraseChar (c : Char) : Bool :=
  isCJKChar c || isRegexSpace c || isChinesePunct c

/-! ## Python string primitives -/

/-- Python `str.strip()`: remove leading and trailing whitespace. -/
def pyStrip (s : Str) : Str :=
  ((s.dropWhile isStripSpace).reverse.dropWhile isStripSpace).reverse

/-- Loop of Python `str.count(pat)` for a nonempty pattern `p :: ps`:
count non-overlapping occurrences, scanning left to right. -/
def countLoop (p : Char) (ps : List Char) (s : List Char) : Nat :=
  if h : (p :: ps) <+: s then
    1 + countLoop p ps (s.drop (ps.length + 1))
  else
    match s with
    | [] => 0
    | _ :: t => countLoop p ps t
termination_by s.length
decreasing_by
  · have hlen : (p :: ps).length ≤ s.length := h.length_le
    simp only [List.length_cons] at hlen
    simp only [List.length_drop]
    omega
  · simp

/-- Python `str.count`: for the empty pattern Python returns `len(s) + 1`. -/
def pyCount (pat s : Str) : Nat :=
  match pat with
  | [] => s.length + 1
  | p :: ps => countLoop p ps s

/-- Python `str.replace` applied with the empty pattern: the replacement is
inserted at every character boundary. -/
def interEmpty (rep : Str) : Str → Str
  | [] => rep
  | c :: t => rep ++ c :: interEmpty rep t

/-- Loop of Python `str.replace(pat, rep)` for a nonempty pattern `p :: ps`:
replace non-overlapping occurrences, scanning left to right. -/
def replaceLoop (p : Char) (ps rep : List Char) (s : List Char) : List Char :=
  if h : (p :: ps) <+: s then
    rep ++ replaceLoop p ps rep (s.drop (ps.length + 1))
  else
    match s with
    | [] => []
    | c :: t => c :: replaceLoop p ps rep t
termination_by s.length
decreasing_by
  · have hlen : (p :: ps).length ≤ s.length := h.length_le
    simp only [List.length_cons] at hlen
    simp only [List.length_drop]
    omega
  · simp

/-- Python `str.replace(pat, rep)`. -/
def pyReplace (pat rep s : Str) : Str :=
  match pat with
  | [] => interEmpty rep s
  | p :: ps => replaceLoop p ps rep s

/-! ## Python dict primitives -/

/-- Python dict assignment `d[k] = v`: update the value in place if the key
is present, otherwise append the new binding. -/
def dinsert (k : Str) (v : Str) : TransDict → TransDict
  | [] => [(k, v)]
  | (k', v') :: d => if k' = k then (k, v) :: d else (k', v') :: dinsert k v d

/-- Python dict lookup `d[k]` / `k in d`. -/
def dlookup (k : Str) : TransDict → Option Str
  | [] => none
  | (k', v') :: d => if k' = k then some v' else dlookup k d

/-- `existing.copy()` followed by `.update(new)`
(`translate_googletranslate.py` lines 528–529). -/
def mergeTranslations (existing newTranslations : TransDict) : TransDict :=
  newTranslations.foldl (fun d kv => dinsert kv.1 kv.2 d) existing

/-! ## Applicator (`apply_translations.py`) -/

/-- `english_translation.startswith('[')` on a Python string. -/
def startsWithBracket : Str → Bool
  | [] => false
  | c :: _ => c = '['

/-- `english_translation.endswith(']')` on a Python string. -/
def endsWithBracket (v : Str) : Bool :=
  match v.getLast? with
  | some c => c = ']'
  | none => false

/-- The Applicator's placeholder test
(`v.startswith('[') and v.endswith(']')`, lines 109 and 176). -/
def isPlaceholderValue (v : Str) : Bool :=
  startsWithBracket v && endsWithBracket v

/-- Line 116: escape quotation marks in the translation,
`english_translation.replace('"', '\\"').replace("'", "\\'")`. -/
def escapeQuotes (v : Str) : Str :=
  pyReplace ['\''] ['\\', '\''] (pyReplace ['"'] ['\\', '"'] v)

/-- Insert an entry into the sorted run of translations, keeping keys in
descending length order; an entry moves ahead of another only when its key is
strictly longer, which makes the sort stable, as Python's `sorted` is. -/
def insertByLen (e : Str × Str) : List (Str × Str) → List (Str × Str)
  | [] => [e]
  | e' :: l => if e.1.length ≥ e'.1.length then e :: e' :: l else e' :: insertByLen e l

/-- Line 104: `sorted(self.translations.items(), key=lambda x: len(x[0]),
reverse=True)` — a stable sort by descending key length. -/
def sortTranslations : List (Str × Str) → List (Str × Str)
  | [] => []
  | e :: l => insertByLen e (sortTranslations l)

/-- The body of the replacement loop (lines 107–120) for one store entry:
skip bracket-wrapped placeholder values; otherwise count occurrences and,
when positive, replace all of them with the quote-escaped translation. -/
def applyEntry (content : Str) (e : Str × Str) : Str :=
  if isPlaceholderValue e.2 then content
  else if 0 < pyCount e.1 content then pyReplace e.1 (escapeQuotes e.2) content
  else content

/-- Run the replacement loop over a list of entries in order. -/
def applyEntries (content : Str) : List (Str × Str) → Str
  | [] => content
  | e :: l => applyEntries (applyEntry content e) l

/-- Lines 103–121 of `apply_translations_to_file`: sort the store by
descending key length and apply each entry to the content in that order. -/
def applyTranslations (translations : TransDict) (content : Str) : Str :=
  applyEntries content (sortTranslations translations)

/-- Lines 175–176 of `TranslationApplicator.run`: drop entries whose value is
bracket-wrapped (`valid_translations`). -/
def validTranslations (translations : TransDict) : TransDict :=
  translations.filter (fun e => !isPlaceholderValue e.2)

/-- The four encodings tried by the file readers, in order
(`apply_translations.py` line 86). -/
inductive Encoding
  | utf8 | gbk | gb2312 | utf16
deriving DecidableEq

/-- The fixed order in which encodings are attempted. -/
def encodingOrder : List Encoding := [.utf8, .gbk, .gb2312, .utf16]

/-- Position of an encoding in the attempt order. -/
def encodingRank : Encoding → Nat
  | .utf8 => 0
  | .gbk => 1
  | .gb2312 => 2
  | .utf16 => 3

/-- Lines 84–93: try each encoding in order and keep the first that decodes
the file without error, together with the decoded content.  The file itself
is abstracted as the map `dec` from encodings to decode results. -/
def firstDecode (dec : Encoding → Option Str) : Option (Encoding × Str) :=
  encodingOrder.findSome? (fun e => (dec e).map (fun c => (e, c)))

/-- Lines 82–130 of `apply_translations_to_file`, as the write effect it
produces: `none` when the file is left untouched (undecodable, or content
unchanged), `some (enc, c')` when the new content `c'` is written back with
encoding `enc`. -/
def applyToFileWrite (translations : TransDict) (dec : Encoding → Option Str) :
    Option (Encoding × Str) :=
  match firstDecode dec with
  | none => none
  | some (enc, content) =>
    let c' := applyTranslations translations content
    if c' = content then none else some (enc, c')

/-! ## Persisted store loading

The on-disk state of the store file is abstracted as a `ReadResult`:
the file may be missing, may exist but fail to parse as JSON, or may parse
to a mapping. -/

/-- Outcome of reading the persisted store file. -/
inductive ReadResult
  | missing
  | unparseable
  | parsed (d : TransDict)

/-- `LocalMassTranslator.load_existing_translations` (lines 431–448): a
missing file yields `{}`; any exception — including a JSON parse error — is
caught, printed, and also yields `{}`. -/
def load_existing_translations : ReadResult → TransDict
  | .missing => []
  | .unparseable => []
  | .parsed d => d

/-- `TranslationApplicator.load_translations` (lines 21–36): returns the
mapping on success and `False` (here `none`) on `FileNotFoundError`,
`json.JSONDecodeError`, or any other exception. -/
def applicator_load_translations : ReadResult → Option TransDict
  | .missing => none
  | .unparseable => none
  | .parsed d => some d

/-- Step 3 of `LocalMassTranslator.run` (lines 510–512): the set of scanned
strings minus the keys of the loaded store, with no filtering of
placeholder-valued entries. -/
def newStringsToTranslate (scanned : List Str) (existing : TransDict) : List Str :=
  scanned.filter (fun s => !(existing.any (fun e => e.1 == s)))

/-- `LocalMassTranslator.run` from step 1 onward (lines 498–532), as the
store contents it saves to disk: `none` when the run returns before saving
(nothing scanned, or nothing new to translate), otherwise the merge of the
loaded store with the newly translated entries.  The translation step is
abstracted as the function `translated`. -/
def translatorRunSaves (r : ReadResult) (scanned : List Str)
    (translated : List Str → TransDict) : Option TransDict :=
  let existing := load_existing_translations r
  if scanned = [] then none
  else
    let newStrings := newStringsToTranslate scanned existing
    if newStrings = [] then none
    else some (mergeTranslations existing (translated newStrings))

/-- `TranslationApplicator.run` up to the store checks (lines 171–184): abort
when the store fails to load, filter out placeholder entries, abort when
nothing valid remains; otherwise the applicator proceeds with the filtered
store. -/
def applicatorRunStore (r : ReadResult) : Option TransDict :=
  match applicator_load_translations r with
  | none => none
  | some d =>
    let valid := validTranslations d
    if valid = [] then none else some valid

/-! ## Translator dispatch (`translate_googletranslate.py`) -/

/-- The configuration and environment of `LocalMassTranslator`: the length
threshold, the readiness flags set up by `setup_translators`, and the two
translation backends.  `argosTranslate` returns `none` when the Argos call
raises; `googleBatch` returns `none` when the HTTP status of a batch request
is not 200, and otherwise the list of translated strings of the response. -/
structure TransCfg where
  threshold : Int
  google_translate_ready : Bool
  argos_translator_ready : Bool
  argosTranslate : Str → Option Str
  googleBatch : List Str → Option (List Str)

/-- `translate_with_argos` (lines 232–242). -/
def translate_with_argos (cfg : TransCfg) (t : Str) : Str :=
  if !cfg.argos_translator_ready then "[ARGOS_NOT_READY: ".data ++ t ++ "]".data
  else
    match cfg.argosTranslate t with
    | some tr => pyStrip tr
    | none => "[ARGOS_ERROR: ".data ++ t ++ "]".data

/-- The Google API error placeholder for one string. -/
def googleApiError (t : Str) : Str := "[GOOGLE_API_ERROR: ".data ++ t ++ "]".data

/-- Split a list into consecutive batches of at most 128 elements
(`batch_size = 128`, line 254). -/
def batches128 : List Str → List (List Str)
  | [] => []
  | s :: l => (s :: l.take 127) :: batches128 (l.drop 127)
termination_by l => l.length
decreasing_by simp only [List.length_drop, List.length_cons]; omega

/-- Record the outcome of one Google batch in the accumulating dict
(lines 274–286): on HTTP 200, each string is zipped with its translation and
receives the stripped text, or the error placeholder when the stripped text
is empty; on any other status every string of the batch receives the error
placeholder. -/
def recordGoogleBatch (cfg : TransCfg) (d : TransDict) (batch : List Str) : TransDict :=
  match cfg.googleBatch batch with
  | some outs =>
    (batch.zip outs).foldl
      (fun d p =>
        dinsert p.1 (if pyStrip p.2 = [] then googleApiError p.1 else pyStrip p.2) d) d
  | none => batch.foldl (fun d orig => dinsert orig (googleApiError orig) d) d

/-- `translate_batch_with_google_api` (lines 245–325): when the API is not
ready every string maps to `[GOOGLE_API_NOT_READY: …]`; otherwise the
strings are processed in batches of 128. -/
def translate_batch_with_google_api (cfg : TransCfg) (strings : List Str) : TransDict :=
  if !cfg.google_translate_ready then
    strings.map (fun t => (t, "[GOOGLE_API_NOT_READY: ".data ++ t ++ "]".data))
  else
    (batches128 strings).foldl (recordGoogleBatch cfg) []

/-- Line 369: `[s for s in strings_list if len(s) >= self.threshold]`. -/
def longStringsOf (cfg : TransCfg) (strings : List Str) : List Str :=
  strings.filter (fun s => cfg.threshold ≤ (s.length : Int))

/-- Line 370: `[s for s in strings_list if 3 <= len(s) < self.threshold]`. -/
def shortStringsOf (cfg : TransCfg) (strings : List Str) : List Str :=
  strings.filter (fun s => 3 ≤ s.length && (s.length : Int) < cfg.threshold)

/-- Translate each string with Argos individually, accumulating into a dict
(the loop bodies at lines 342–353, 389–400 and 416–427). -/
def argosAll (cfg : TransCfg) (strings : List Str) (d : TransDict) : TransDict :=
  strings.foldl (fun d t => dinsert t (translate_with_argos cfg t) d) d

/-- `translate_all` (lines 327–429): threshold `-1` sends everything to
Argos; threshold `0` with the Google API ready sends everything to the
batch API; a positive threshold with the API ready splits by length —
`≥ threshold` to the batch API, `[3, threshold)` to Argos, the rest
nowhere; otherwise everything goes to Argos. -/
def translate_all (cfg : TransCfg) (strings : List Str) : TransDict :=
  if cfg.threshold = -1 then
    argosAll cfg strings []
  else if cfg.threshold = 0 ∧ cfg.google_translate_ready then
    translate_batch_with_google_api cfg strings
  else if cfg.google_translate_ready ∧ 0 < cfg.threshold then
    let longStrings := longStringsOf cfg strings
    let shortStrings := shortStringsOf cfg strings
    let d := if longStrings = [] then []
             else translate_batch_with_google_api cfg longStrings
    argosAll cfg shortStrings d
  else
    argosAll cfg strings []

/-! ## Extraction grammar (`extract_chinese_strings_from_file`, both
translator scripts)

Pattern 1 is
`[CJK][CJK\s，。、：；！？]*[CJK]|[CJK]` and pattern 2 is `[CJK]+`, where
`CJK` abbreviates the three ranges.  `re.findall` scans left to right for
the leftmost match, prefers the first alternative, and resumes after each
match.  For pattern 1, a match starting at a CJK character extends through
the maximal run of phrase characters that follows and ends at the last CJK
character inside that run; when the run contains no further CJK character
the single-character alternative applies. -/

/-- Split a run of phrase characters at its last CJK character:
`some (p, q)` with `l = p ++ q`, `p` ending in the last CJK character of
`l`; `none` when `l` has no CJK character. -/
def takeToLastCJK (l : List Char) : Option (List Char × List Char) :=
  if (l.reverse.dropWhile (fun c => !isCJKChar c)) = [] then none
  else some ((l.reverse.dropWhile (fun c => !isCJKChar c)).reverse,
             (l.reverse.takeWhile (fun c => !isCJKChar c)).reverse)

/-- `re.findall(pattern1, content)` (line 174/175). -/
def findPattern1 (l : List Char) : List (List Char) :=
  match l with
  | [] => []
  | c :: rest =>
    if isCJKChar c then
      match h : takeToLastCJK (rest.takeWhile isPhraseChar) with
      | some (p, q) => (c :: p) :: findPattern1 (q ++ rest.dropWhile isPhraseChar)
      | none => [c] :: findPattern1 rest
    else findPattern1 rest
termination_by l.length
decreasing_by
  · simp only [takeToLastCJK] at h
    split at h
    · simp at h
    · rename_i hne
      rw [Option.some_inj] at h
      simp only [Prod.mk.injEq] at h
      have hp : p = (((rest.takeWhile isPhraseChar).reverse.dropWhile
          (fun c => !isCJKChar c)).reverse) := h.1.symm
      have hq : q = (((rest.takeWhile isPhraseChar).reverse.takeWhile
          (fun c => !isCJKChar c)).reverse) := h.2.symm
      have hlen1 : p.length + q.length = (rest.takeWhile isPhraseChar).length := by
        rw [hp, hq]
        simp only [List.length_reverse]
        have := congrArg List.length
          (List.takeWhile_append_dropWhile (p := fun c => !isCJKChar c)
            (l := (rest.takeWhile isPhraseChar).reverse))
        simp only [List.length_append, List.length_reverse] at this
        omega
      have hpne : p ≠ [] := by
        rw [hp]
        simpa using hne
      have hppos : 0 < p.length := List.length_pos.mpr hpne
      have htw : (rest.takeWhile isPhraseChar).length +
          (rest.dropWhile isPhraseChar).length = rest.length := by
        have := congrArg List.length
          (List.takeWhile_append_dropWhile (p := isPhraseChar) (l := rest))
        simp only [List.length_append] at this
        omega
      simp only [List.length_append, List.length_cons]
      omega
  · simp only [List.length_cons]; omega
  · simp only [List.length_cons]; omega

/-- `re.findall(pattern2, content)` (line 178/179): the maximal runs of CJK
characters. -/
def findPattern2 (l : List Char) : List (List Char) :=
  match l with
  | [] => []
  | c :: rest =>
    if isCJKChar c then
      (c :: rest.takeWhile isCJKChar) :: findPattern2 (rest.dropWhile isCJKChar)
    else findPattern2 rest
termination_by l.length
decreasing_by
  · have := (List.dropWhile_sublist (p := isCJKChar) (l := rest)).length_le
    simp only [List.length_cons]
    omega
  · simp only [List.length_cons]; omega

/-- Lines 170–188: take the union of both patterns' matches, deduplicate,
strip whitespace, and keep the nonempty results that contain at least one
CJK character. -/
def extract_chinese_strings (content : Str) : List Str :=
  ((((findPattern1 content ++ findPattern2 content).dedup).map pyStrip).filter
    (fun s => !s.isEmpty && 1 ≤ s.length && s.any isCJKChar)).dedup


/-! ## Well-behavedness conditions for the substitution engine

The general store under which the Applicator's longest-match-first run is
collision-free: keys are nonempty, and every value that will actually be
substituted is, after quote-escaping, nonempty and shares no character with
any key of the store (as is the case for Chinese keys and Latin
translations). -/

/-- The conditions under which no replacement can create or destroy an
occurrence of another store key. -/
def SubstitutionSafe (t : TransDict) : Prop :=
  (∀ e ∈ t, e.1 ≠ []) ∧
  (∀ e ∈ t, isPlaceholderValue e.2 = false →
    escapeQuotes e.2 ≠ [] ∧ ∀ a ∈ escapeQuotes e.2, ∀ e' ∈ t, a ∉ e'.1)

/-! ## Lemmas -/

theorem countLoop_cons {p : Char} {ps : List Char} {c : Char} {t : List Char} :
    countLoop p ps (c :: t) =
      if (p :: ps) <+: (c :: t) then
        1 + countLoop p ps ((c :: t).drop (ps.length + 1))
      else countLoop p ps t := by
  rw [countLoop]
  split
  · rfl
  · rfl

theorem replaceLoop_cons {p : Char} {ps rep : List Char} {c : Char} {t : List Char} :
    replaceLoop p ps rep (c :: t) =
      if (p :: ps) <+: (c :: t) then
        rep ++ replaceLoop p ps rep ((c :: t).drop (ps.length + 1))
      else c :: replaceLoop p ps rep t := by
  rw [replaceLoop]
  split
  · rfl
  · rfl


theorem countLoop_pos {p : Char} {ps s : List Char} (h : (p :: ps) <+: s) :
    countLoop p ps s = 1 + countLoop p ps (s.drop (ps.length + 1)) := by
  rw [countLoop]
  simp [h]

theorem countLoop_nil {p : Char} {ps : List Char} : countLoop p ps [] = 0 := by
  rw [countLoop]
  simp

theorem countLoop_neg {p c : Char} {ps t : List Char} (h : ¬ (p :: ps) <+: (c :: t)) :
    countLoop p ps (c :: t) = countLoop p ps t := by
  rw [countLoop]
  simp [h]

theorem countLoop_eq_zero_iff {p : Char} {ps : List Char} (s : List Char) :
    countLoop p ps s = 0 ↔ ¬ ((p :: ps) <:+: s) := by
  induction s using countLoop.induct p ps with
  | case1 s hp ih =>
    rw [countLoop_pos hp]
    simp only [Nat.add_eq_zero_iff]
    constructor
    · omega
    · intro hc
      exact absurd hp.isInfix hc
  | case2 h1 h2 =>
    rw [countLoop_nil]
    simp
  | case3 c t hp hp2 ih =>
    rw [countLoop_neg hp]
    rw [ih]
    constructor
    · intro hni hc
      rcases List.infix_cons_iff.mp hc with h | h
      · exact hp h
      · exact hni h
    · intro hni hc
      exact hni (List.infix_cons_iff.mpr (Or.inr hc))

theorem replaceLoop_pos {p : Char} {ps rep s : List Char} (h : (p :: ps) <+: s) :
    replaceLoop p ps rep s = rep ++ replaceLoop p ps rep (s.drop (ps.length + 1)) := by
  rw [replaceLoop]
  simp [h]

theorem replaceLoop_nil {p : Char} {ps rep : List Char} : replaceLoop p ps rep [] = [] := by
  rw [replaceLoop]
  simp

theorem replaceLoop_neg {p c : Char} {ps rep t : List Char}
    (h : ¬ (p :: ps) <+: (c :: t)) :
    replaceLoop p ps rep (c :: t) = c :: replaceLoop p ps rep t := by
  rw [replaceLoop]
  simp [h]

/-- If no character of `rep` occurs in `q` and `rep` is nonempty, a prefix of
`rep ++ r` drawn from `q`'s characters must be empty. -/
theorem prefix_of_disjoint_append {q rep r : List Char} (hrep : rep ≠ [])
    (hdisj : ∀ a ∈ rep, a ∉ q) (h : q <+: rep ++ r) : q = [] := by
  cases q with
  | nil => rfl
  | cons a q' =>
    cases rep with
    | nil => exact absurd rfl hrep
    | cons b rep' =>
      rw [List.cons_append, List.cons_prefix_cons] at h
      exact absurd (h.1 ▸ List.mem_cons_self b rep') (by
        intro hmem
        exact hdisj b (List.mem_cons_self b rep') (h.1 ▸ List.mem_cons_self a q'))

/-- A nonempty `k` sharing no character with `rep` occurs in `rep ++ r` only
if it occurs in `r`. -/
theorem infix_of_disjoint_append {k rep r : List Char} (hk : k ≠ [])
    (hdisj : ∀ a ∈ rep, a ∉ k) (h : k <:+: rep ++ r) : k <:+: r := by
  induction rep with
  | nil => simpa using h
  | cons b rep' ih =>
    rw [List.cons_append, List.infix_cons_iff] at h
    rcases h with h | h
    · cases k with
      | nil => exact absurd rfl hk
      | cons a k' =>
        rw [List.cons_prefix_cons] at h
        exact absurd (h.1 ▸ List.mem_cons_self a k')
          (h.1 ▸ hdisj b (List.mem_cons_self b rep'))
    · exact ih (fun a ha => hdisj a (List.mem_cons_of_mem b ha)) h

/-- A prefix of a replacement result drawn from characters disjoint from the
replacement text is a prefix of the original string. -/
theorem prefix_of_prefix_replaceLoop {p : Char} {ps rep : List Char} (hrep : rep ≠ [])
    {s q : List Char} (hdisj : ∀ a ∈ rep, a ∉ q)
    (h : q <+: replaceLoop p ps rep s) : q <+: s := by
  induction s using replaceLoop.induct p ps rep generalizing q with
  | case1 s hp ih =>
    rw [replaceLoop_pos hp] at h
    have hq : q = [] := prefix_of_disjoint_append hrep hdisj h
    simp [hq]
  | case2 h1 h2 =>
    rw [replaceLoop_nil] at h
    simpa using h
  | case3 c t hp hp2 ih =>
    rw [replaceLoop_neg hp] at h
    cases q with
    | nil => simp
    | cons a q' =>
      rw [List.cons_prefix_cons] at h ⊢
      refine ⟨h.1, ih ?_ h.2⟩
      intro x hx hmem
      exact hdisj x hx (List.mem_cons_of_mem a hmem)

/-- After replacing every occurrence of a nonempty pattern with a nonempty
replacement sharing no character with it, the pattern no longer occurs. -/
theorem not_infix_replaceLoop_self {p : Char} {ps rep : List Char} (hrep : rep ≠ [])
    (hdisj : ∀ a ∈ rep, a ∉ (p :: ps)) (s : List Char) :
    ¬ (p :: ps) <:+: replaceLoop p ps rep s := by
  induction s using replaceLoop.induct p ps rep with
  | case1 s hp ih =>
    rw [replaceLoop_pos hp]
    intro hc
    exact ih (infix_of_disjoint_append (by simp) hdisj hc)
  | case2 h1 h2 =>
    rw [replaceLoop_nil]
    simp
  | case3 c t hp hp2 ih =>
    rw [replaceLoop_neg hp]
    intro hc
    rcases List.infix_cons_iff.mp hc with h | h
    · cases rep with
      | nil => exact absurd rfl hrep
      | cons b rep' =>
        rw [List.cons_prefix_cons] at h
        have hps : ps <+: t := by
          refine prefix_of_prefix_replaceLoop (by simp) ?_ h.2
          intro a ha hmem
          exact hdisj a ha (List.mem_cons_of_mem p hmem)
        exact hp (h.1 ▸ List.cons_prefix_cons.mpr ⟨rfl, hps⟩)
    · exact ih h

/-- Replacement with a nonempty text sharing no character with `k` cannot
create an occurrence of `k`. -/
theorem not_infix_replaceLoop {k : List Char} {p : Char} {ps rep : List Char}
    (hk : k ≠ []) (hrep : rep ≠ []) (hdisj : ∀ a ∈ rep, a ∉ k) {s : List Char}
    (hs : ¬ k <:+: s) : ¬ k <:+: replaceLoop p ps rep s := by
  induction s using replaceLoop.induct p ps rep with
  | case1 s hp ih =>
    rw [replaceLoop_pos hp]
    intro hc
    have hdropped : ¬ k <:+: s.drop (ps.length + 1) := by
      intro hd
      exact hs (hd.trans (List.drop_suffix _ s).isInfix)
    exact ih hdropped (infix_of_disjoint_append hk hdisj hc)
  | case2 h1 h2 =>
    rw [replaceLoop_nil]
    simp [hk]
  | case3 c t hp hp2 ih =>
    rw [replaceLoop_neg hp]
    have ht : ¬ k <:+: t := fun hd => hs (List.infix_cons hd)
    intro hc
    rcases List.infix_cons_iff.mp hc with h | h
    · cases k with
      | nil => exact absurd rfl hk
      | cons a k' =>
        rw [List.cons_prefix_cons] at h
        have hk' : k' <+: t := by
          refine prefix_of_prefix_replaceLoop hrep ?_ h.2
          intro x hx hmem
          exact hdisj x hx (List.mem_cons_of_mem a hmem)
        exact hs (List.infix_cons_iff.mpr (Or.inl (h.1 ▸ List.cons_prefix_cons.mpr ⟨rfl, hk'⟩)))
    · exact ih ht h

/-- One replacement step cannot create an occurrence of a key `k` that is
absent, when the entry's escaped value shares no character with `k`. -/
theorem not_infix_applyEntry {k : Str} {e : Str × Str} {c : Str} (hk : k ≠ [])
    (he1 : e.1 ≠ [])
    (hval : isPlaceholderValue e.2 = false →
      escapeQuotes e.2 ≠ [] ∧ ∀ a ∈ escapeQuotes e.2, a ∉ k)
    (hc : ¬ k <:+: c) : ¬ k <:+: applyEntry c e := by
  unfold applyEntry
  split
  · exact hc
  · rename_i hph
    have hph' : isPlaceholderValue e.2 = false := by
      simpa using hph
    split
    · cases hkey : e.1 with
      | nil => exact absurd hkey he1
      | cons p ps =>
        unfold pyReplace
        exact not_infix_replaceLoop hk (hval hph').1 (hval hph').2 hc
    · exact hc

/-- Applying a run of entries cannot create an occurrence of an absent key
`k` when every entry's escaped value shares no character with `k`. -/
theorem not_infix_applyEntries {k : Str} {l : List (Str × Str)} {c : Str} (hk : k ≠ [])
    (hkeys : ∀ e ∈ l, e.1 ≠ [])
    (hvals : ∀ e ∈ l, isPlaceholderValue e.2 = false →
      escapeQuotes e.2 ≠ [] ∧ ∀ a ∈ escapeQuotes e.2, a ∉ k)
    (hc : ¬ k <:+: c) : ¬ k <:+: applyEntries c l := by
  induction l generalizing c with
  | nil => exact hc
  | cons e l ih =>
    exact ih (fun e' he' => hkeys e' (List.mem_cons_of_mem e he'))
      (fun e' he' => hvals e' (List.mem_cons_of_mem e he'))
      (not_infix_applyEntry hk (hkeys e (List.mem_cons_self e l))
        (hvals e (List.mem_cons_self e l)) hc)

/-- After the full replacement run, no key of a processed non-placeholder
entry occurs in the content, provided keys are nonempty and escaped values
share no character with any processed key. -/
theorem applyEntries_no_occurrence {l : List (Str × Str)} {c : Str}
    (hkeys : ∀ e ∈ l, e.1 ≠ [])
    (hvals : ∀ e ∈ l, isPlaceholderValue e.2 = false →
      escapeQuotes e.2 ≠ [] ∧ ∀ a ∈ escapeQuotes e.2, ∀ e' ∈ l, a ∉ e'.1) :
    ∀ e ∈ l, isPlaceholderValue e.2 = false → ¬ e.1 <:+: applyEntries c l := by
  induction l generalizing c with
  | nil => intro e he; exact absurd he (List.not_mem_nil e)
  | cons e0 l ih =>
    intro e he hph
    rcases List.mem_cons.mp he with rfl | he'
    · show ¬ e.1 <:+: applyEntries (applyEntry c e) l
      have hstep : ¬ e.1 <:+: applyEntry c e := by
        unfold applyEntry
        rw [hph]
        simp only [Bool.false_eq_true, if_false]
        have hv := hvals e (List.mem_cons_self e l) hph
        split
        · cases hkey : e.1 with
          | nil => exact absurd hkey (hkeys e (List.mem_cons_self e l))
          | cons p ps =>
            show ¬ (p :: ps) <:+: replaceLoop p ps (escapeQuotes e.2) c
            refine not_infix_replaceLoop_self hv.1 ?_ c
            intro a ha
            rw [← hkey]
            exact hv.2 a ha e (List.mem_cons_self e l)
        · rename_i hcnt
          cases hkey : e.1 with
          | nil => exact absurd hkey (hkeys e (List.mem_cons_self e l))
          | cons p ps =>
            rw [hkey] at hcnt
            simp only [pyCount] at hcnt
            have : countLoop p ps c = 0 := by omega
            exact (countLoop_eq_zero_iff c).mp this
      refine not_infix_applyEntries (hkeys e (List.mem_cons_self e l))
        (fun e' he' => hkeys e' (List.mem_cons_of_mem e he'))
        (fun e' he' hph' => ?_) hstep
      refine ⟨((hvals e' (List.mem_cons_of_mem e he')) hph').1, fun a ha => ?_⟩
      exact ((hvals e' (List.mem_cons_of_mem e he')) hph').2 a ha e (List.mem_cons_self e l)
    · exact ih (fun e' he'' => hkeys e' (List.mem_cons_of_mem e0 he''))
        (fun e' he'' hph' =>
          ⟨((hvals e' (List.mem_cons_of_mem e0 he'')) hph').1,
           fun a ha e'' he''' =>
             ((hvals e' (List.mem_cons_of_mem e0 he'')) hph').2 a ha e''
               (List.mem_cons_of_mem e0 he''')⟩)
        e he' hph

/-- A run of entries none of which applies (placeholder value, or key absent
from the content) leaves the content unchanged. -/
theorem applyEntries_id {l : List (Str × Str)} {c : Str}
    (h : ∀ e ∈ l, isPlaceholderValue e.2 = true ∨
      (e.1 ≠ [] ∧ ¬ e.1 <:+: c)) : applyEntries c l = c := by
  induction l with
  | nil => rfl
  | cons e l ih =>
    have hstep : applyEntry c e = c := by
      rcases h e (List.mem_cons_self e l) with hph | ⟨hne, hni⟩
      · unfold applyEntry
        rw [hph]
        simp
      · unfold applyEntry
        split
        · rfl
        · cases hkey : e.1 with
          | nil => exact absurd hkey hne
          | cons p ps =>
            rw [hkey] at hni
            have hz : countLoop p ps c = 0 := (countLoop_eq_zero_iff c).mpr hni
            simp only [pyCount, hz]
            simp
    show applyEntries (applyEntry c e) l = c
    rw [hstep]
    exact ih (fun e' he' => h e' (List.mem_cons_of_mem e he'))

theorem insertByLen_cons (e y : Str × Str) (l : List (Str × Str)) :
    insertByLen e (y :: l) =
      if e.1.length ≥ y.1.length then e :: y :: l else y :: insertByLen e l := rfl

theorem insertByLen_perm (e : Str × Str) (l : List (Str × Str)) :
    List.Perm (insertByLen e l) (e :: l) := by
  induction l with
  | nil => exact List.Perm.refl _
  | cons e' l ih =>
    rw [insertByLen_cons]
    split
    · exact List.Perm.refl _
    · exact (List.Perm.cons e' ih).trans (List.Perm.swap e e' l)

theorem sortTranslations_perm (l : List (Str × Str)) :
    List.Perm (sortTranslations l) l := by
  induction l with
  | nil => exact List.Perm.refl _
  | cons e l ih =>
    exact (insertByLen_perm e (sortTranslations l)).trans (ih.cons e)

theorem insertByLen_sorted {e : Str × Str} {l : List (Str × Str)}
    (hl : l.Pairwise (fun a b => b.1.length ≤ a.1.length)) :
    (insertByLen e l).Pairwise (fun a b => b.1.length ≤ a.1.length) := by
  induction l with
  | nil => simp [insertByLen]
  | cons e' l ih =>
    rw [insertByLen_cons]
    split
    · rename_i hge
      refine List.pairwise_cons.mpr ⟨?_, hl⟩
      intro b hb
      rcases List.mem_cons.mp hb with rfl | hb'
      · exact hge
      · exact le_trans ((List.pairwise_cons.mp hl).1 b hb') hge
    · rename_i hlt
      push_neg at hlt
      refine List.pairwise_cons.mpr ⟨?_, ih (List.pairwise_cons.mp hl).2⟩
      intro b hb
      have := (insertByLen_perm e l).mem_iff.mp hb
      rcases List.mem_cons.mp this with rfl | hb'
      · omega
      · exact (List.pairwise_cons.mp hl).1 b hb'

theorem sortTranslations_sorted (l : List (Str × Str)) :
    (sortTranslations l).Pairwise (fun a b => b.1.length ≤ a.1.length) := by
  induction l with
  | nil => simp [sortTranslations]
  | cons e l ih => exact insertByLen_sorted ih

/-- Inserting an element whose key is at least as long as every key in the
list puts it in front. -/
theorem insertByLen_eq_cons {e : Str × Str} {l : List (Str × Str)}
    (h : ∀ e' ∈ l, e'.1.length ≤ e.1.length) : insertByLen e l = e :: l := by
  cases l with
  | nil => rfl
  | cons e' l =>
    rw [insertByLen_cons, if_pos (h e' (List.mem_cons_self e' l))]

theorem filter_insertByLen {q : (Str × Str) → Bool} {e : Str × Str}
    {l : List (Str × Str)} (hl : l.Pairwise (fun a b => b.1.length ≤ a.1.length)) :
    (insertByLen e l).filter q =
      if q e then insertByLen e (l.filter q) else l.filter q := by
  induction l with
  | nil =>
    cases hqe : q e <;> simp [insertByLen, List.filter_cons, hqe]
  | cons y ys ih =>
    have hys : ys.Pairwise (fun a b => b.1.length ≤ a.1.length) :=
      (List.pairwise_cons.mp hl).2
    have hy : ∀ b ∈ ys, b.1.length ≤ y.1.length := (List.pairwise_cons.mp hl).1
    rw [insertByLen_cons]
    by_cases hge : e.1.length ≥ y.1.length
    · rw [if_pos hge]
      cases hqe : q e with
      | false => simp [List.filter_cons, hqe]
      | true =>
        have hall : ∀ e' ∈ (y :: ys).filter q, e'.1.length ≤ e.1.length := by
          intro e' he'
          rcases List.mem_cons.mp (List.mem_of_mem_filter he') with rfl | he''
          · exact hge
          · exact le_trans (hy e' he'') hge
        rw [insertByLen_eq_cons hall]
        simp [List.filter_cons, hqe]
    · push_neg at hge
      rw [if_neg (by omega)]
      cases hqy : q y with
      | true =>
        have h1 : (y :: ys).filter q = y :: ys.filter q := by
          simp [List.filter_cons, hqy]
        rw [h1]
        cases hqe : q e with
        | true =>
          have h2 : insertByLen e (y :: ys.filter q) =
              y :: insertByLen e (ys.filter q) := by
            rw [insertByLen_cons, if_neg (by omega)]
          simp [List.filter_cons, hqy, hqe, ih hys, h2]
        | false => simp [List.filter_cons, hqy, hqe, ih hys]
      | false =>
        have h1 : (y :: ys).filter q = ys.filter q := by
          simp [List.filter_cons, hqy]
        rw [h1]
        cases hqe : q e with
        | true => simp [List.filter_cons, hqy, hqe, ih hys]
        | false => simp [List.filter_cons, hqy, hqe, ih hys]

theorem sortTranslations_cons (e : Str × Str) (l : List (Str × Str)) :
    sortTranslations (e :: l) = insertByLen e (sortTranslations l) := rfl

theorem sortTranslations_filter (q : (Str × Str) → Bool) (l : List (Str × Str)) :
    sortTranslations (l.filter q) = (sortTranslations l).filter q := by
  induction l with
  | nil => rfl
  | cons e l ih =>
    rw [sortTranslations_cons, filter_insertByLen (sortTranslations_sorted l),
      List.filter_cons]
    cases hqe : q e with
    | true =>
      simp only [if_pos (rfl : true = true), if_true]
      rw [sortTranslations_cons, ih]
    | false =>
      simp only [if_neg (by simp : ¬ (false = true)), if_false]
      exact ih

/-- Placeholder-valued entries do not affect the replacement run: filtering
them out first yields the same content. -/
theorem applyEntries_filter_placeholder (l : List (Str × Str)) (c : Str) :
    applyEntries c l = applyEntries c (l.filter (fun e => !isPlaceholderValue e.2)) := by
  induction l generalizing c with
  | nil => rfl
  | cons e l ih =>
    rw [List.filter_cons]
    cases hph : isPlaceholderValue e.2 with
    | true =>
      have hstep : applyEntry c e = c := by
        unfold applyEntry
        rw [hph]
        simp
      rw [if_neg (by simp [hph])]
      show applyEntries (applyEntry c e) l = _
      rw [hstep]
      exact ih c
    | false =>
      rw [if_pos (by simp [hph])]
      show applyEntries (applyEntry c e) l = _
      exact ih (applyEntry c e)

/-- `applyTranslations` ignores placeholder entries entirely. -/
theorem applyTranslations_validTranslations (t : TransDict) (c : Str) :
    applyTranslations t c = applyTranslations (validTranslations t) c := by
  unfold applyTranslations validTranslations
  rw [applyEntries_filter_placeholder, sortTranslations_filter]


theorem dlookup_cons (k : Str) (e : Str × Str) (d : TransDict) :
    dlookup k (e :: d) = if e.1 = k then some e.2 else dlookup k d := rfl

theorem dinsert_cons (k v : Str) (e : Str × Str) (d : TransDict) :
    dinsert k v (e :: d) =
      if e.1 = k then (k, v) :: d else e :: dinsert k v d := rfl

theorem dlookup_dinsert_self (k v : Str) (d : TransDict) :
    dlookup k (dinsert k v d) = some v := by
  induction d with
  | nil => simp [dinsert, dlookup]
  | cons e d ih =>
    rw [dinsert_cons]
    by_cases h : e.1 = k
    · rw [if_pos h, dlookup_cons]
      simp
    · rw [if_neg h, dlookup_cons, if_neg h]
      exact ih

theorem dlookup_dinsert_ne {k' k : Str} (h : k' ≠ k) (v : Str) (d : TransDict) :
    dlookup k' (dinsert k v d) = dlookup k' d := by
  induction d with
  | nil =>
    show dlookup k' [(k, v)] = dlookup k' []
    rw [dlookup_cons, if_neg (fun hc => h hc.symm)]
  | cons e d ih =>
    rw [dinsert_cons]
    by_cases he : e.1 = k
    · rw [if_pos he, dlookup_cons, dlookup_cons,
        if_neg (fun hc => h hc.symm), if_neg (by rw [he]; exact fun hc => h hc.symm)]
    · rw [if_neg he, dlookup_cons, dlookup_cons]
      by_cases he' : e.1 = k'
      · rw [if_pos he', if_pos he']
      · rw [if_neg he', if_neg he', ih]

theorem dlookup_dinsert_isSome {k' k : Str} {v : Str} {d : TransDict}
    (h : (dlookup k' d).isSome) : (dlookup k' (dinsert k v d)).isSome := by
  by_cases hk : k' = k
  · subst hk
    rw [dlookup_dinsert_self]
    rfl
  · rw [dlookup_dinsert_ne hk]
    exact h

/-- Lookup in the dict produced by an Argos loop: a key not among the
translated strings is untouched. -/
theorem dlookup_argosAll_not_mem {cfg : TransCfg} {strings : List Str} {s : Str}
    (h : s ∉ strings) (d : TransDict) :
    dlookup s (argosAll cfg strings d) = dlookup s d := by
  induction strings generalizing d with
  | nil => rfl
  | cons t l ih =>
    show dlookup s (argosAll cfg l (dinsert t (translate_with_argos cfg t) d)) = _
    rw [ih (fun hc => h (List.mem_cons_of_mem t hc)),
      dlookup_dinsert_ne (fun hc : s = t => h (hc ▸ List.mem_cons_self t l))]

/-- Lookup in the dict produced by an Argos loop: every translated string is
assigned its Argos result. -/
theorem dlookup_argosAll_of_mem {cfg : TransCfg} {strings : List Str} {s : Str}
    (h : s ∈ strings) (d : TransDict) :
    dlookup s (argosAll cfg strings d) = some (translate_with_argos cfg s) := by
  induction strings generalizing d with
  | nil => exact absurd h (List.not_mem_nil s)
  | cons t l ih =>
    show dlookup s (argosAll cfg l (dinsert t (translate_with_argos cfg t) d)) = _
    by_cases hs : s ∈ l
    · exact ih hs _
    · have hst : s = t := by
        rcases List.mem_cons.mp h with h' | h'
        · exact h'
        · exact absurd h' hs
      subst hst
      rw [dlookup_argosAll_not_mem hs, dlookup_dinsert_self]

/-- Generic fold of keyed inserts over a list: an absent key is untouched. -/
theorem dlookup_listfold_not_mem {g : Str → Str} {s : Str} {bs : List Str}
    (h : s ∉ bs) (d0 : TransDict) :
    dlookup s (bs.foldl (fun d x => dinsert x (g x) d) d0) = dlookup s d0 := by
  induction bs generalizing d0 with
  | nil => rfl
  | cons b bs ih =>
    show dlookup s (bs.foldl _ (dinsert b (g b) d0)) = _
    rw [ih (fun hc => h (List.mem_cons_of_mem b hc)),
      dlookup_dinsert_ne (fun hc : s = b => h (hc ▸ List.mem_cons_self b bs))]

/-- Generic fold of keyed inserts over a list: presence is preserved. -/
theorem dlookup_listfold_isSome {g : Str → Str} {s : Str} {bs : List Str}
    {d0 : TransDict} (h : (dlookup s d0).isSome) :
    (dlookup s (bs.foldl (fun d x => dinsert x (g x) d) d0)).isSome := by
  induction bs generalizing d0 with
  | nil => exact h
  | cons b bs ih => exact ih (dlookup_dinsert_isSome h)

/-- Generic fold of keyed inserts over a list: every listed key is present
afterwards. -/
theorem dlookup_listfold_isSome_of_mem {g : Str → Str} {s : Str} {bs : List Str}
    (h : s ∈ bs) (d0 : TransDict) :
    (dlookup s (bs.foldl (fun d x => dinsert x (g x) d) d0)).isSome := by
  induction bs generalizing d0 with
  | nil => exact absurd h (List.not_mem_nil s)
  | cons b bs ih =>
    show (dlookup s (bs.foldl _ (dinsert b (g b) d0))).isSome
    rcases List.mem_cons.mp h with rfl | hs
    · exact dlookup_listfold_isSome (by rw [dlookup_dinsert_self]; rfl)
    · exact ih hs _

/-- Generic fold of pair inserts: a key absent from the pairs' first
components is untouched. -/
theorem dlookup_pairfold_not_mem {f : Str × Str → Str} {s : Str}
    {ps : List (Str × Str)} (h : ∀ p ∈ ps, p.1 ≠ s) (d0 : TransDict) :
    dlookup s (ps.foldl (fun d p => dinsert p.1 (f p) d) d0) = dlookup s d0 := by
  induction ps generalizing d0 with
  | nil => rfl
  | cons p ps ih =>
    show dlookup s (ps.foldl _ (dinsert p.1 (f p) d0)) = _
    rw [ih (fun p' hp' => h p' (List.mem_cons_of_mem p hp')),
      dlookup_dinsert_ne (fun hc : s = p.1 => h p (List.mem_cons_self p ps) hc.symm)]

/-- Generic fold of pair inserts: presence is preserved. -/
theorem dlookup_pairfold_isSome {f : Str × Str → Str} {s : Str}
    {ps : List (Str × Str)} {d0 : TransDict} (h : (dlookup s d0).isSome) :
    (dlookup s (ps.foldl (fun d p => dinsert p.1 (f p) d) d0)).isSome := by
  induction ps generalizing d0 with
  | nil => exact h
  | cons p ps ih => exact ih (dlookup_dinsert_isSome h)

/-- Generic fold of pair inserts: every key among the pairs' first
components is present afterwards. -/
theorem dlookup_pairfold_isSome_of_mem {f : Str × Str → Str} {s : Str}
    {ps : List (Str × Str)} (h : ∃ p ∈ ps, p.1 = s) (d0 : TransDict) :
    (dlookup s (ps.foldl (fun d p => dinsert p.1 (f p) d) d0)).isSome := by
  induction ps generalizing d0 with
  | nil =>
    rcases h with ⟨p, hp, _⟩
    exact absurd hp (List.not_mem_nil p)
  | cons p ps ih =>
    show (dlookup s (ps.foldl _ (dinsert p.1 (f p) d0))).isSome
    rcases h with ⟨p', hp', hps⟩
    rcases List.mem_cons.mp hp' with rfl | hmem
    · by_cases hps' : ∃ p'' ∈ ps, p''.1 = s
      · exact ih hps' _
      · exact dlookup_pairfold_isSome (by rw [hps, dlookup_dinsert_self]; rfl)
    · exact ih ⟨p', hmem, hps⟩ _

/-- A key outside a batch is untouched by recording that batch's results. -/
theorem dlookup_recordGoogleBatch_not_mem {cfg : TransCfg} {batch : List Str} {s : Str}
    (h : s ∉ batch) (d : TransDict) :
    dlookup s (recordGoogleBatch cfg d batch) = dlookup s d := by
  unfold recordGoogleBatch
  cases cfg.googleBatch batch with
  | some outs =>
    refine dlookup_pairfold_not_mem ?_ d
    intro p hp hc
    exact h (hc ▸ (List.of_mem_zip hp).1)
  | none =>
    exact dlookup_listfold_not_mem h d

/-- Recording a batch preserves presence of any key. -/
theorem dlookup_recordGoogleBatch_isSome {cfg : TransCfg} {batch : List Str} {s : Str}
    {d : TransDict} (h : (dlookup s d).isSome) :
    (dlookup s (recordGoogleBatch cfg d batch)).isSome := by
  unfold recordGoogleBatch
  cases cfg.googleBatch batch with
  | some outs => exact dlookup_pairfold_isSome h
  | none => exact dlookup_listfold_isSome h

/-- When the batch response is parallel to the request (or the whole batch
fails), every string of the batch receives an entry. -/
theorem dlookup_recordGoogleBatch_isSome_of_mem {cfg : TransCfg} {batch : List Str}
    {s : Str} (hpar : ∀ outs, cfg.googleBatch batch = some outs →
      outs.length = batch.length)
    (h : s ∈ batch) (d : TransDict) :
    (dlookup s (recordGoogleBatch cfg d batch)).isSome := by
  unfold recordGoogleBatch
  cases houts : cfg.googleBatch batch with
  | some outs =>
    refine dlookup_pairfold_isSome_of_mem ?_ d
    have hmap : (batch.zip outs).map Prod.fst = batch :=
      List.map_fst_zip batch outs (le_of_eq (hpar outs houts).symm)
    rcases List.mem_map.mp (hmap ▸ h) with ⟨p, hp, hps⟩
    exact ⟨p, hp, hps⟩
  | none =>
    exact dlookup_listfold_isSome_of_mem h d

/-- Lookup in the dict built by a `map` comprehension (`{t: g(t) for t in bs}`). -/
theorem dlookup_mapdict_not_mem {g : Str → Str} {s : Str} {bs : List Str}
    (h : s ∉ bs) : dlookup s (bs.map (fun t => (t, g t))) = none := by
  induction bs with
  | nil => rfl
  | cons b bs ih =>
    rw [List.map_cons, dlookup_cons,
      if_neg (fun hc : b = s => h (hc ▸ List.mem_cons_self b bs))]
    exact ih (fun hc => h (List.mem_cons_of_mem b hc))

theorem dlookup_mapdict_of_mem {g : Str → Str} {s : Str} {bs : List Str}
    (h : s ∈ bs) : dlookup s (bs.map (fun t => (t, g t))) = some (g s) := by
  induction bs with
  | nil => exact absurd h (List.not_mem_nil s)
  | cons b bs ih =>
    rw [List.map_cons, dlookup_cons]
    by_cases hb : b = s
    · rw [if_pos hb, hb]
    · rw [if_neg hb]
      exact ih (by
        rcases List.mem_cons.mp h with h' | h'
        · exact absurd h'.symm hb
        · exact h')

/-- Every element of a batch comes from the partitioned list. -/
theorem mem_of_mem_batches128 {b : List Str} {l : List Str}
    (hb : b ∈ batches128 l) : ∀ s ∈ b, s ∈ l := by
  induction l using batches128.induct with
  | case1 => simp [batches128] at hb
  | case2 x xs ih =>
    rw [batches128] at hb
    rcases List.mem_cons.mp hb with rfl | hb'
    · intro s hs
      rcases List.mem_cons.mp hs with rfl | hs'
      · exact List.mem_cons_self s xs
      · exact List.mem_cons_of_mem x (List.mem_of_mem_take hs')
    · intro s hs
      exact List.mem_cons_of_mem x (List.mem_of_mem_drop (ih hb' s hs))

/-- Every string of the list appears in one of its batches. -/
theorem batches128_cover {s : Str} {l : List Str} (h : s ∈ l) :
    ∃ b ∈ batches128 l, s ∈ b := by
  induction l using batches128.induct with
  | case1 => exact absurd h (List.not_mem_nil s)
  | case2 x xs ih =>
    rw [batches128]
    rcases List.mem_cons.mp h with rfl | hs
    · exact ⟨s :: xs.take 127, List.mem_cons_self _ _, List.mem_cons_self s _⟩
    · rcases List.mem_append.mp ((List.take_append_drop 127 xs) ▸ hs) with h' | h'
      · exact ⟨x :: xs.take 127, List.mem_cons_self _ _, List.mem_cons_of_mem x h'⟩
      · rcases ih h' with ⟨b, hb, hsb⟩
        exact ⟨b, List.mem_cons_of_mem _ hb, hsb⟩

/-- Folding batch recordings preserves presence. -/
theorem dlookup_foldl_record_isSome {cfg : TransCfg} {s : Str}
    {bs : List (List Str)} {d : TransDict} (h : (dlookup s d).isSome) :
    (dlookup s (bs.foldl (recordGoogleBatch cfg) d)).isSome := by
  induction bs generalizing d with
  | nil => exact h
  | cons b bs ih => exact ih (dlookup_recordGoogleBatch_isSome h)

/-- After folding batch recordings, every string covered by some batch has an
entry, provided each successful batch response is parallel to its request. -/
theorem dlookup_foldl_record_isSome_of_mem {cfg : TransCfg} {s : Str}
    {bs : List (List Str)}
    (hpar : ∀ b outs, cfg.googleBatch b = some outs → outs.length = b.length)
    (h : ∃ b ∈ bs, s ∈ b) (d : TransDict) :
    (dlookup s (bs.foldl (recordGoogleBatch cfg) d)).isSome := by
  induction bs generalizing d with
  | nil =>
    rcases h with ⟨b, hb, _⟩
    exact absurd hb (List.not_mem_nil b)
  | cons b bs ih =>
    rw [List.foldl_cons]
    rcases h with ⟨b', hb', hsb⟩
    rcases List.mem_cons.mp hb' with rfl | hmem
    · exact dlookup_foldl_record_isSome
        (dlookup_recordGoogleBatch_isSome_of_mem (hpar b') hsb d)
    · exact ih ⟨b', hmem, hsb⟩ _

/-- Total coverage of the Google batch translator under parallel responses. -/
theorem dlookup_translate_batch_isSome {cfg : TransCfg} {strings : List Str} {s : Str}
    (hpar : ∀ b outs, cfg.googleBatch b = some outs → outs.length = b.length)
    (h : s ∈ strings) :
    (dlookup s (translate_batch_with_google_api cfg strings)).isSome := by
  unfold translate_batch_with_google_api
  split
  · rename_i hready
    rw [dlookup_mapdict_of_mem h]
    rfl
  · exact dlookup_foldl_record_isSome_of_mem hpar (batches128_cover h) []

/-- The Google batch translator introduces no key outside its input. -/
theorem dlookup_translate_batch_not_mem {cfg : TransCfg} {strings : List Str} {s : Str}
    (h : s ∉ strings) :
    dlookup s (translate_batch_with_google_api cfg strings) = none := by
  unfold translate_batch_with_google_api
  split
  · exact dlookup_mapdict_not_mem h
  · have : ∀ bs : List (List Str), (∀ b ∈ bs, ∀ x ∈ b, x ∈ strings) →
        ∀ d, dlookup s d = none → dlookup s (bs.foldl (recordGoogleBatch cfg) d) = none := by
      intro bs
      induction bs with
      | nil => exact fun _ d hd => hd
      | cons b bs ih =>
        intro hsub d hd
        refine ih (fun b' hb' => hsub b' (List.mem_cons_of_mem b hb')) _ ?_
        rw [dlookup_recordGoogleBatch_not_mem
          (fun hc => h (hsub b (List.mem_cons_self b bs) s hc)), hd]
    exact this (batches128 strings) (fun b hb => mem_of_mem_batches128 hb) [] rfl

/-- A key not among the newly supplied entries is unchanged by the merge. -/
theorem dlookup_merge_not_mem {k : Str} {e n : TransDict}
    (h : ∀ p ∈ n, p.1 ≠ k) : dlookup k (mergeTranslations e n) = dlookup k e :=
  dlookup_pairfold_not_mem h e

/-- A key among the newly supplied entries (with unique keys) takes its new
value in the merge. -/
theorem dlookup_merge_of_mem {k : Str} {e n : TransDict}
    (hnd : (n.map Prod.fst).Nodup) (h : ∃ p ∈ n, p.1 = k) :
    dlookup k (mergeTranslations e n) = dlookup k n := by
  induction n generalizing e with
  | nil =>
    rcases h with ⟨p, hp, _⟩
    exact absurd hp (List.not_mem_nil p)
  | cons p n ih =>
    have hnd2 : p.1 ∉ n.map Prod.fst ∧ (n.map Prod.fst).Nodup := by
      rw [List.map_cons] at hnd
      exact List.nodup_cons.mp hnd
    have hnd' : (n.map Prod.fst).Nodup := hnd2.2
    show dlookup k (mergeTranslations (dinsert p.1 p.2 e) n) = _
    rw [dlookup_cons]
    by_cases hp1 : p.1 = k
    · rw [if_pos hp1]
      have hnotin : ∀ p' ∈ n, p'.1 ≠ k := by
        intro p' hp' hc
        apply hnd2.1
        have hmem : p'.1 ∈ n.map Prod.fst := List.mem_map_of_mem Prod.fst hp'
        rwa [hc, ← hp1] at hmem
      rw [dlookup_merge_not_mem hnotin, hp1, dlookup_dinsert_self]
    · rw [if_neg hp1]
      refine ih hnd' ?_
      rcases h with ⟨p', hp', hps⟩
      rcases List.mem_cons.mp hp' with rfl | hmem
      · exact absurd hps hp1
      · exact ⟨p', hmem, hps⟩


/-! Extraction-grammar lemmas -/

theorem takeToLastCJK_eq_some {l p q : List Char}
    (h : takeToLastCJK l = some (p, q)) :
    p ≠ [] ∧ (∀ a ∈ p, a ∈ l) ∧
      (∀ lst, p.getLast? = some lst → isCJKChar lst = true) := by
  unfold takeToLastCJK at h
  split at h
  · exact absurd h (by simp)
  · rename_i hne
    rw [Option.some_inj, Prod.mk.injEq] at h
    obtain ⟨hp, hq⟩ := h
    subst hp hq
    refine ⟨by simpa using hne, ?_, ?_⟩
    · intro a ha
      rw [List.mem_reverse] at ha
      have := List.dropWhile_sublist (fun c => !isCJKChar c) (l := l.reverse)
      have hmem := this.subset ha
      rwa [List.mem_reverse] at hmem
    · intro lst hlst
      rw [List.getLast?_reverse] at hlst
      have hne' : l.reverse.dropWhile (fun c => !isCJKChar c) ≠ [] := hne
      have := List.head_dropWhile_not (fun c => !isCJKChar c) l.reverse
        (by simpa using hne')
      rw [List.head?_eq_head (by simpa using hne')] at hlst
      rw [Option.some_inj] at hlst
      subst hlst
      simpa using this

/-- Every pattern-1 match is nonempty, starts and ends with a CJK character,
and consists only of phrase characters. -/
theorem mem_findPattern1 {l m : List Char} (hm : m ∈ findPattern1 l) :
    m ≠ [] ∧ (∀ a ∈ m, isPhraseChar a = true) ∧
      (∀ hd, m.head? = some hd → isCJKChar hd = true) ∧
      (∀ lst, m.getLast? = some lst → isCJKChar lst = true) := by
  induction l using findPattern1.induct with
  | case1 => simp [findPattern1] at hm
  | case2 c rest hc p q hpq ih =>
    rw [findPattern1, if_pos hc, hpq] at hm
    rcases List.mem_cons.mp hm with rfl | hm'
    · obtain ⟨hpne, hpsub, hplast⟩ := takeToLastCJK_eq_some hpq
      refine ⟨by simp, ?_, ?_, ?_⟩
      · intro a ha
        rcases List.mem_cons.mp ha with rfl | ha'
        · simp [isPhraseChar, hc]
        · have : a ∈ rest.takeWhile isPhraseChar := hpsub a ha'
          exact List.mem_takeWhile_imp this
      · intro hd hhd
        rw [List.head?_cons, Option.some_inj] at hhd
        subst hhd
        exact hc
      · intro lst hlst
        rw [List.getLast?_cons, ← List.head?_reverse] at hlst
        cases hp : p.reverse with
        | nil => exact absurd (by simpa using hp) hpne
        | cons x xs =>
          rw [hp] at hlst
          simp at hlst
          refine hplast lst ?_
          rw [← List.head?_reverse, hp]
          simpa using hlst
    · exact ih hm'
  | case3 c rest hc hnone ih =>
    rw [findPattern1, if_pos hc, hnone] at hm
    rcases List.mem_cons.mp hm with rfl | hm'
    · refine ⟨by simp, ?_, ?_, ?_⟩
      · intro a ha
        rw [List.mem_singleton] at ha
        subst ha
        simp [isPhraseChar, hc]
      · intro hd hhd
        rw [List.head?_cons, Option.some_inj] at hhd
        subst hhd
        exact hc
      · intro lst hlst
        simp at hlst
        subst hlst
        exact hc
    · exact ih hm'
  | case4 c rest hc ih =>
    rw [findPattern1, if_neg hc] at hm
    exact ih hm

/-- Every pattern-2 match is nonempty and consists only of CJK characters. -/
theorem mem_findPattern2 {l m : List Char} (hm : m ∈ findPattern2 l) :
    m ≠ [] ∧ (∀ a ∈ m, isCJKChar a = true) := by
  induction l using findPattern2.induct with
  | case1 => simp [findPattern2] at hm
  | case2 c rest hc ih =>
    rw [findPattern2, if_pos hc] at hm
    rcases List.mem_cons.mp hm with rfl | hm'
    · refine ⟨by simp, ?_⟩
      intro a ha
      rcases List.mem_cons.mp ha with rfl | ha'
      · exact hc
      · exact List.mem_takeWhile_imp ha'
    · exact ih hm'
  | case3 c rest hc ih =>
    rw [findPattern2, if_neg hc] at hm
    exact ih hm

/-- Stripping only removes characters. -/
theorem mem_pyStrip {s : Str} {a : Char} (h : a ∈ pyStrip s) : a ∈ s := by
  unfold pyStrip at h
  rw [List.mem_reverse] at h
  have h1 := (List.dropWhile_sublist isStripSpace
    (l := (s.dropWhile isStripSpace).reverse)).subset h
  rw [List.mem_reverse] at h1
  exact (List.dropWhile_sublist isStripSpace (l := s)).subset h1

/-- The head of a stripped string is not whitespace. -/
theorem pyStrip_head_not_space {s : Str} {hd : Char}
    (hhd : (pyStrip s).head? = some hd) : isStripSpace hd = false := by
  unfold pyStrip at hhd
  have hpre : ((s.dropWhile isStripSpace).reverse.dropWhile isStripSpace).reverse <+:
      s.dropWhile isStripSpace := by
    have := List.reverse_prefix.mpr (List.dropWhile_suffix isStripSpace
      (l := (s.dropWhile isStripSpace).reverse))
    rwa [List.reverse_reverse] at this
  cases hz : ((s.dropWhile isStripSpace).reverse.dropWhile isStripSpace).reverse with
  | nil => rw [hz] at hhd; exact absurd hhd (by simp)
  | cons a z' =>
    rw [hz] at hhd hpre
    rw [List.head?_cons, Option.some_inj] at hhd
    subst hhd
    cases hx : s.dropWhile isStripSpace with
    | nil => rw [hx] at hpre; exact absurd hpre (by simp)
    | cons b x' =>
      rw [hx] at hpre
      rw [List.cons_prefix_cons] at hpre
      have hb := List.head_dropWhile_not isStripSpace s (by simp [hx])
      simp only [hx, List.head_cons] at hb
      rw [hpre.1]
      exact hb

/-- The last character of a stripped string is not whitespace. -/
theorem pyStrip_last_not_space {s : Str} {lst : Char}
    (hlst : (pyStrip s).getLast? = some lst) : isStripSpace lst = false := by
  unfold pyStrip at hlst
  rw [List.getLast?_reverse] at hlst
  cases hy : (s.dropWhile isStripSpace).reverse.dropWhile isStripSpace with
  | nil => rw [hy] at hlst; exact absurd hlst (by simp)
  | cons a y' =>
    have hne : (s.dropWhile isStripSpace).reverse.dropWhile isStripSpace ≠ [] := by
      simp [hy]
    have := List.head_dropWhile_not isStripSpace (s.dropWhile isStripSpace).reverse hne
    rw [List.head?_eq_head hne] at hlst
    rw [Option.some_inj] at hlst
    subst hlst
    exact this

/-- No phrase character (CJK, whitespace, or Chinese punctuation) is a Latin
letter. -/
theorem isPhraseChar_not_latin {c : Char} (h : isPhraseChar c = true) :
    isLatinLetter c = false := by
  rw [isPhraseChar, Bool.or_eq_true, Bool.or_eq_true] at h
  rcases h with (h | h) | h
  · rw [isCJKChar] at h
    simp only [Bool.or_eq_true, Bool.and_eq_true, decide_eq_true_eq] at h
    rw [isLatinLetter, Bool.eq_false_iff]
    intro hcon
    simp only [Bool.or_eq_true, Bool.and_eq_true, decide_eq_true_eq] at hcon
    omega
  · rw [isRegexSpace] at h
    simp only [Bool.or_eq_true, Bool.and_eq_true, decide_eq_true_eq,
      beq_iff_eq] at h
    rw [isLatinLetter, Bool.eq_false_iff]
    intro hcon
    simp only [Bool.or_eq_true, Bool.and_eq_true, decide_eq_true_eq] at hcon
    omega
  · rw [isChinesePunct, chinesePunctChars] at h
    rw [List.contains_eq_any_beq] at h
    simp only [List.any_cons, List.any_nil, Bool.or_eq_true, beq_iff_eq] at h
    rcases h with rfl | rfl | rfl | rfl | rfl | rfl | rfl | h
    · decide
    · decide
    · decide
    · decide
    · decide
    · decide
    · decide
    · exact absurd h (by simp)

/-- The first-successful-decode scan: when no encoding decodes, the result is
`none`; when it returns an encoding, that encoding decoded the content and
every earlier encoding in the attempt order failed. -/
theorem firstDecode_none_iff (dec : Encoding → Option Str) :
    firstDecode dec = none ↔ ∀ e, dec e = none := by
  constructor
  · intro h e
    cases h1 : dec .utf8 <;> cases h2 : dec .gbk <;> cases h3 : dec .gb2312 <;>
      cases h4 : dec .utf16 <;>
      simp only [firstDecode, encodingOrder, List.findSome?, h1, h2, h3, h4,
        Option.map_some, Option.map_none] at h <;>
      first
        | (cases e
           · exact h1
           · exact h2
           · exact h3
           · exact h4)
        | exact absurd h (by simp)
  · intro h
    simp [firstDecode, encodingOrder, List.findSome?, h .utf8, h .gbk,
      h .gb2312, h .utf16]

theorem firstDecode_some {dec : Encoding → Option Str} {e : Encoding} {c : Str}
    (h : firstDecode dec = some (e, c)) :
    dec e = some c ∧ ∀ e', encodingRank e' < encodingRank e → dec e' = none := by
  cases h1 : dec .utf8 <;> cases h2 : dec .gbk <;> cases h3 : dec .gb2312 <;>
    cases h4 : dec .utf16 <;>
    simp [firstDecode, encodingOrder, List.findSome?, h1, h2, h3, h4] at h <;>
    obtain ⟨rfl, rfl⟩ := h <;>
    refine ⟨by assumption, ?_⟩ <;>
    intro e' he' <;>
    cases e' <;> simp [encodingRank] at he' <;>
    first | exact h1 | exact h2 | exact h3


set_option maxRecDepth 2000

/-- Under `SubstitutionSafe`, after a full Applicator pass no non-placeholder
key occurs in the content any more. -/
theorem applyTranslations_no_occurrence {t : TransDict} {c : Str}
    (hsafe : SubstitutionSafe t) :
    ∀ e ∈ t, isPlaceholderValue e.2 = false → ¬ e.1 <:+: applyTranslations t c := by
  intro e he hph
  unfold applyTranslations
  refine applyEntries_no_occurrence ?_ ?_ e
    ((sortTranslations_perm t).mem_iff.mpr he) hph
  · intro e' he'
    exact hsafe.1 e' ((sortTranslations_perm t).mem_iff.mp he')
  · intro e' he' hph'
    have h2 := hsafe.2 e' ((sortTranslations_perm t).mem_iff.mp he') hph'
    exact ⟨h2.1, fun a ha e'' he'' =>
      h2.2 a ha e'' ((sortTranslations_perm t).mem_iff.mp he'')⟩

/-- C1 (counterexample): the claim's general clause fails as stated.  In the
store `{"系统设置": "[GOOGLE_API_ERROR: 系统设置]", "系统": "system"}` the longer
key `系统设置` is present but its value is a bracket-wrapped placeholder, so
the Applicator skips it — and then substitutes the shorter key `系统` inside
the untouched occurrence of the longer key, producing `system设置`. -/
theorem c1_counterexample :
    applyTranslations [("系统设置".data, "[GOOGLE_API_ERROR: 系统设置]".data),
      ("系统".data, "system".data)] "系统设置".data = "system设置".data := by
  simp [applyTranslations, sortTranslations, insertByLen, applyEntries, applyEntry,
    isPlaceholderValue, startsWithBracket, endsWithBracket, escapeQuotes, pyReplace, pyCount,
    countLoop_cons, countLoop_nil, replaceLoop_cons, replaceLoop_nil,
    interEmpty, List.cons_prefix_cons, String.data]

/-- C1 (amended): the Applicator substitutes longest keys first.  For the
store `{"系统": "system", "系统设置": "system settings"}` applied to
`"系统设置"` the result is `"system settings"`.  In general the processing
order is a permutation of the store sorted by descending key length, and —
provided keys are nonempty and every non-placeholder value, after
quote-escaping, is nonempty and shares no character with any store key — no
occurrence of any non-placeholder key survives the run, so no shorter key is
substituted inside a surviving occurrence of a longer key. -/
theorem c1_longest_match_first :
    (applyTranslations [("系统".data, "system".data),
        ("系统设置".data, "system settings".data)] "系统设置".data
      = "system settings".data)
    ∧ (∀ t : TransDict, (sortTranslations t).Pairwise
        (fun a b => b.1.length ≤ a.1.length) ∧ List.Perm (sortTranslations t) t)
    ∧ (∀ (t : TransDict) (c : Str), SubstitutionSafe t →
        ∀ e ∈ t, isPlaceholderValue e.2 = false →
          ¬ e.1 <:+: applyTranslations t c) := by
  refine ⟨?_, fun t => ⟨sortTranslations_sorted t, sortTranslations_perm t⟩, ?_⟩
  · simp [applyTranslations, sortTranslations, insertByLen, applyEntries, applyEntry,
      isPlaceholderValue, startsWithBracket, endsWithBracket, escapeQuotes, pyReplace, pyCount,
      countLoop_cons, countLoop_nil, replaceLoop_cons, replaceLoop_nil,
      interEmpty, List.cons_prefix_cons, String.data]
  · intro t c hsafe e he hph
    exact applyTranslations_no_occurrence hsafe e he hph

/-- C1 (witness): the amended general statement applied to the concrete
store of the claim: after the run on `"系统设置"` the longer key no longer
occurs anywhere in the content. -/
theorem c1_longest_match_first_witness :
    SubstitutionSafe [("系统".data, "system".data),
      ("系统设置".data, "system settings".data)] ∧
    ¬ "系统设置".data <:+:
      applyTranslations [("系统".data, "system".data),
        ("系统设置".data, "system settings".data)] "系统设置".data := by
  have hsafe : SubstitutionSafe [("系统".data, "system".data),
      ("系统设置".data, "system settings".data)] := by
    constructor
    · decide
    · simp only [SubstitutionSafe, isPlaceholderValue, startsWithBracket, endsWithBracket,
        escapeQuotes, pyReplace, String.data]
      simp [replaceLoop_cons, replaceLoop_nil, List.cons_prefix_cons]
  exact ⟨hsafe, c1_longest_match_first.2.2 _ _ hsafe
    ("系统设置".data, "system settings".data) (by simp) (by decide)⟩

/-- C8 (counterexample): idempotence fails as claimed for an arbitrary
store.  With store `{"乙": "z", "甲": "乙"}` and content `"甲"`, the first
pass yields `"乙"` (the value of `甲` reintroduces the key `乙`, which was
already processed), and the second pass turns that into `"z"`. -/
theorem c8_counterexample :
    applyTranslations [("乙".data, "z".data), ("甲".data, "乙".data)]
        (applyTranslations [("乙".data, "z".data), ("甲".data, "乙".data)] "甲".data) ≠
      applyTranslations [("乙".data, "z".data), ("甲".data, "乙".data)] "甲".data := by
  simp [applyTranslations, sortTranslations, insertByLen, applyEntries, applyEntry,
    isPlaceholderValue, startsWithBracket, endsWithBracket, escapeQuotes, pyReplace, pyCount,
    countLoop_cons, countLoop_nil, replaceLoop_cons, replaceLoop_nil,
    interEmpty, List.cons_prefix_cons, String.data]

/-- C8 (amended): the Applicator is idempotent on every store whose keys are
nonempty and whose non-placeholder values, after quote-escaping, are
nonempty and share no character with any store key (as Chinese-to-Latin
stores do): the second run changes nothing, and the occurrence count of
every still-applicable key is zero after the first run. -/
theorem c8_idempotent :
    ∀ (t : TransDict) (c : Str), SubstitutionSafe t →
      applyTranslations t (applyTranslations t c) = applyTranslations t c ∧
      ∀ e ∈ t, isPlaceholderValue e.2 = false →
        pyCount e.1 (applyTranslations t c) = 0 := by
  intro t c hsafe
  constructor
  · show applyEntries (applyTranslations t c) (sortTranslations t) = _
    refine applyEntries_id ?_
    intro e he
    cases hph : isPlaceholderValue e.2 with
    | true => exact Or.inl rfl
    | false =>
      have he' := (sortTranslations_perm t).mem_iff.mp he
      exact Or.inr ⟨hsafe.1 e he',
        applyTranslations_no_occurrence hsafe e he' hph⟩
  · intro e he hph
    have hni := applyTranslations_no_occurrence (c := c) hsafe e he hph
    cases hkey : e.1 with
    | nil => exact absurd hkey (hsafe.1 e he)
    | cons p ps =>
      rw [hkey] at hni
      show pyCount (p :: ps) _ = 0
      exact (countLoop_eq_zero_iff _).mpr hni

/-- C8 (witness): idempotence at the concrete store of the spec's example,
on content `"系统设置"`. -/
theorem c8_idempotent_witness :
    SubstitutionSafe [("系统".data, "system".data),
      ("系统设置".data, "system settings".data)] ∧
    applyTranslations [("系统".data, "system".data),
        ("系统设置".data, "system settings".data)]
      (applyTranslations [("系统".data, "system".data),
        ("系统设置".data, "system settings".data)] "系统设置".data) =
    applyTranslations [("系统".data, "system".data),
      ("系统设置".data, "system settings".data)] "系统设置".data := by
  have hsafe : SubstitutionSafe [("系统".data, "system".data),
      ("系统设置".data, "system settings".data)] := by
    constructor
    · decide
    · simp only [SubstitutionSafe, isPlaceholderValue, startsWithBracket, endsWithBracket,
        escapeQuotes, pyReplace, String.data]
      simp [replaceLoop_cons, replaceLoop_nil, List.cons_prefix_cons]
  exact ⟨hsafe, (c8_idempotent _ _ hsafe).1⟩

/-- C2 (counterexample): a key whose stored value is an error placeholder is
not re-requested on the next run: with the store
`{"你好": "[ARGOS_ERROR: 你好]"}` and `"你好"` among the scanned strings, the
set of new strings to translate is empty, because the "already translated"
set is built from all keys of the store without filtering placeholders. -/
theorem c2_counterexample :
    newStringsToTranslate ["你好".data]
      [("你好".data, "[ARGOS_ERROR: 你好]".data)] = [] := by
  rfl

/-- C2 (amended): entries with bracket-wrapped placeholder values are
excluded from the substitutions the Applicator performs (removing them from
the store never changes the result), but they are not excluded from the
"already translated" set: every key present in the loaded store — whether
its value is a placeholder or not — is dropped from the strings to
translate on the next run. -/
theorem c2_placeholder_handling :
    ∀ (t : TransDict) (c : Str) (scanned : List Str),
      applyTranslations t c = applyTranslations (validTranslations t) c ∧
      (∀ s v, (s, v) ∈ t → s ∉ newStringsToTranslate scanned t) := by
  intro t c scanned
  refine ⟨applyTranslations_validTranslations t c, ?_⟩
  intro s v hsv hmem
  have hpred := (List.mem_filter.mp hmem).2
  rw [Bool.not_eq_eq_eq_not, Bool.not_true] at hpred
  have : t.any (fun e => e.1 == s) = true :=
    List.any_eq_true.mpr ⟨(s, v), hsv, by simp⟩
  rw [this] at hpred
  exact absurd hpred (by simp)

/-- C2 (witness): the placeholder entry of the counterexample store is
itself not re-requested. -/
theorem c2_placeholder_handling_witness :
    ("你好".data, "[ARGOS_ERROR: 你好]".data) ∈
      ([("你好".data, "[ARGOS_ERROR: 你好]".data)] : TransDict) ∧
    "你好".data ∉ newStringsToTranslate ["你好".data]
      [("你好".data, "[ARGOS_ERROR: 你好]".data)] :=
  ⟨by decide,
   (c2_placeholder_handling [("你好".data, "[ARGOS_ERROR: 你好]".data)] []
      ["你好".data]).2 "你好".data "[ARGOS_ERROR: 你好]".data (by decide)⟩

/-- C10: the placeholder test is purely syntactic.  The legitimate bracketed
translation `"[OK]"` passes the test, such entries are dropped by `run` and
never substituted: removing all bracket-wrapped entries from any store never
changes any application result, and a store mapping `好` to `"[OK]"` leaves
the content `好` unchanged. -/
theorem c10_syntactic_placeholder_test :
    isPlaceholderValue "[OK]".data = true ∧
    (∀ (t : TransDict) (c : Str),
      applyTranslations t c = applyTranslations (validTranslations t) c) ∧
    validTranslations [("好".data, "[OK]".data)] = [] ∧
    applyTranslations [("好".data, "[OK]".data)] "好".data = "好".data := by
  refine ⟨by decide, fun t c => applyTranslations_validTranslations t c, by decide, ?_⟩
  simp [applyTranslations, sortTranslations, insertByLen, applyEntries, applyEntry,
    isPlaceholderValue, startsWithBracket, endsWithBracket, String.data]

/-- C3 (counterexample): an unparseable store file does not abort the
translator run: `load_existing_translations` swallows the parse error and
returns an empty mapping, after which the run proceeds, translates the
scanned strings and saves a store — overwriting the on-disk file instead of
failing with a `PersistFormatError`-style abort. -/
theorem c3_counterexample :
    translatorRunSaves .unparseable ["你".data]
      (fun ss => ss.map (fun s => (s, "X".data))) =
    some [("你".data, "X".data)] := by
  rfl

/-- C3 (amended): the Translator-side loader returns an empty mapping both
for a missing file and for an unparseable file (so its run continues
identically in the two cases and may re-save the store), while the
Applicator-side loader fails for both a missing and an unparseable file,
aborting its run before any mutation. -/
theorem c3_store_loading :
    load_existing_translations .missing = [] ∧
    load_existing_translations .unparseable = [] ∧
    (∀ d, load_existing_translations (.parsed d) = d) ∧
    applicator_load_translations .missing = none ∧
    applicator_load_translations .unparseable = none ∧
    (∀ d, applicator_load_translations (.parsed d) = some d) ∧
    applicatorRunStore .missing = none ∧
    applicatorRunStore .unparseable = none ∧
    (∀ scanned translated, translatorRunSaves .missing scanned translated =
      translatorRunSaves .unparseable scanned translated) :=
  ⟨rfl, rfl, fun _ => rfl, rfl, rfl, fun _ => rfl, rfl, rfl, fun _ _ => rfl⟩

/-- C6: the merge of the existing store with the newly translated entries:
the two concrete examples of the spec, and in general a key supplied by the
new entries (with unique keys) takes its new value while a key not supplied
keeps its existing value. -/
theorem c6_merge_correctness :
    mergeTranslations [("A".data, "a".data)] [("B".data, "b".data)] =
      [("A".data, "a".data), ("B".data, "b".data)] ∧
    mergeTranslations [("A".data, "a".data)] [("A".data, "a2".data)] =
      [("A".data, "a2".data)] ∧
    (∀ (e n : TransDict) (k : Str),
      ((n.map Prod.fst).Nodup → (∃ p ∈ n, p.1 = k) →
        dlookup k (mergeTranslations e n) = dlookup k n) ∧
      ((∀ p ∈ n, p.1 ≠ k) →
        dlookup k (mergeTranslations e n) = dlookup k e)) :=
  ⟨rfl, rfl, fun _ _ _ =>
    ⟨fun hnd h => dlookup_merge_of_mem hnd h, fun h => dlookup_merge_not_mem h⟩⟩

/-- C6 (witness): the overwrite example, through the general statement. -/
theorem c6_merge_correctness_witness :
    ((([("A".data, "a2".data)] : TransDict).map Prod.fst).Nodup ∧
      ∃ p ∈ ([("A".data, "a2".data)] : TransDict), p.1 = "A".data) ∧
    dlookup "A".data (mergeTranslations [("A".data, "a".data)]
        [("A".data, "a2".data)]) =
      dlookup "A".data [("A".data, "a2".data)] :=
  ⟨⟨by decide, by decide⟩,
   (c6_merge_correctness.2.2 [("A".data, "a".data)] [("A".data, "a2".data)]
      "A".data).1 (by decide) (by decide)⟩

/-- C9: the Applicator writes a file back with exactly the encoding that
decoded it — the first of UTF-8, GBK, GB2312, UTF-16 that succeeds, all
earlier ones having failed — and only when the substituted content differs
from the original; when nothing decodes or nothing changed, no write
happens. -/
theorem c9_write_back_policy :
    (∀ (dec : Encoding → Option Str) (t : TransDict),
      (∀ e, dec e = none) → applyToFileWrite t dec = none) ∧
    (∀ (dec : Encoding → Option Str) (t : TransDict) (e : Encoding) (c : Str),
      firstDecode dec = some (e, c) →
        (dec e = some c ∧ ∀ e', encodingRank e' < encodingRank e → dec e' = none) ∧
        (applyTranslations t c = c → applyToFileWrite t dec = none) ∧
        (applyTranslations t c ≠ c →
          applyToFileWrite t dec = some (e, applyTranslations t c))) := by
  constructor
  · intro dec t h
    rw [applyToFileWrite, (firstDecode_none_iff dec).mpr h]
  · intro dec t e c h
    refine ⟨firstDecode_some h, ?_, ?_⟩
    · intro heq
      rw [applyToFileWrite, h]
      simp [heq]
    · intro hne
      rw [applyToFileWrite, h]
      simp only [if_neg hne]

/-- C9 (witness): a file decodable only as GBK, with a store that changes
its content, is written back with GBK. -/
theorem c9_write_back_policy_witness :
    firstDecode (fun e => match e with
      | .gbk => some "好".data
      | _ => none) = some (.gbk, "好".data) ∧
    applyToFileWrite [("好".data, "good".data)]
        (fun e => match e with
          | .gbk => some "好".data
          | _ => none) =
      some (.gbk, applyTranslations [("好".data, "good".data)] "好".data) := by
  have hfd : firstDecode (fun e => match e with
      | .gbk => some "好".data
      | _ => none) = some (.gbk, "好".data) := rfl
  refine ⟨hfd, ?_⟩
  refine ((c9_write_back_policy.2 _ [("好".data, "good".data)] .gbk "好".data
    hfd).2.2 ?_)
  simp [applyTranslations, sortTranslations, insertByLen, applyEntries, applyEntry,
    isPlaceholderValue, startsWithBracket, endsWithBracket, escapeQuotes, pyReplace, pyCount,
    countLoop_cons, countLoop_nil, replaceLoop_cons, replaceLoop_nil,
    interEmpty, List.cons_prefix_cons, String.data]

/-- In the hybrid configuration (remote ready, positive threshold), the
lookup behaviour of `translate_all` by input length. -/
theorem translate_all_hybrid_lookup {cfg : TransCfg} {strings : List Str} {s : Str}
    (hready : cfg.google_translate_ready = true) (hpos : 0 < cfg.threshold)
    (hs : s ∈ strings) :
    (cfg.threshold ≤ (s.length : Int) →
      s ∈ longStringsOf cfg strings ∧ s ∉ shortStringsOf cfg strings ∧
      dlookup s (translate_all cfg strings) =
        dlookup s (translate_batch_with_google_api cfg (longStringsOf cfg strings))) ∧
    (3 ≤ s.length → (s.length : Int) < cfg.threshold →
      s ∈ shortStringsOf cfg strings ∧ s ∉ longStringsOf cfg strings ∧
      dlookup s (translate_all cfg strings) = some (translate_with_argos cfg s)) ∧
    (s.length < 3 → (s.length : Int) < cfg.threshold →
      s ∉ longStringsOf cfg strings ∧ s ∉ shortStringsOf cfg strings ∧
      dlookup s (translate_all cfg strings) = none) := by
  have hbranch : translate_all cfg strings =
      argosAll cfg (shortStringsOf cfg strings)
        (if longStringsOf cfg strings = [] then []
         else translate_batch_with_google_api cfg (longStringsOf cfg strings)) := by
    rw [translate_all, if_neg (by omega), if_neg (by rintro ⟨h0, _⟩; omega),
      if_pos ⟨hready, hpos⟩]
  refine ⟨?_, ?_, ?_⟩
  · intro hle
    have hlong : s ∈ longStringsOf cfg strings :=
      List.mem_filter.mpr ⟨hs, by simpa using hle⟩
    have hshort : s ∉ shortStringsOf cfg strings := by
      intro hc
      have := (List.mem_filter.mp hc).2
      simp only [Bool.and_eq_true, decide_eq_true_eq] at this
      omega
    refine ⟨hlong, hshort, ?_⟩
    rw [hbranch, dlookup_argosAll_not_mem hshort,
      if_neg (List.ne_nil_of_mem hlong)]
  · intro h3 hlt
    have hshort : s ∈ shortStringsOf cfg strings :=
      List.mem_filter.mpr ⟨hs, by
        simp only [Bool.and_eq_true, decide_eq_true_eq]
        exact ⟨h3, hlt⟩⟩
    have hlong : s ∉ longStringsOf cfg strings := by
      intro hc
      have := (List.mem_filter.mp hc).2
      simp only [decide_eq_true_eq] at this
      omega
    refine ⟨hshort, hlong, ?_⟩
    rw [hbranch, dlookup_argosAll_of_mem hshort]
  · intro hsmall hlt
    have hlong : s ∉ longStringsOf cfg strings := by
      intro hc
      have := (List.mem_filter.mp hc).2
      simp only [decide_eq_true_eq] at this
      omega
    have hshort : s ∉ shortStringsOf cfg strings := by
      intro hc
      have := (List.mem_filter.mp hc).2
      simp only [Bool.and_eq_true, decide_eq_true_eq] at this
      omega
    refine ⟨hlong, hshort, ?_⟩
    rw [hbranch, dlookup_argosAll_not_mem hshort]
    split
    · rfl
    · exact dlookup_translate_batch_not_mem hlong

theorem batches128_nil : batches128 [] = [] := by rw [batches128]

theorem batches128_cons (s : Str) (l : List Str) :
    batches128 (s :: l) = (s :: l.take 127) :: batches128 (l.drop 127) := by
  rw [batches128]

/-- C5 (counterexample): with threshold `1` (remote ready) the length-2
string `"一二"` is not left untranslated: it satisfies `len(s) >= threshold`,
is routed to the batch remote capability, and receives an entry (here the
batch-failure placeholder), contradicting the claim that every string of
length < 3 is routed to neither backend. -/
theorem c5_counterexample :
    "一二".data ∈ longStringsOf
      ⟨1, true, true, fun _ => none, fun _ => none⟩ ["一二".data] ∧
    dlookup "一二".data (translate_all
      ⟨1, true, true, fun _ => none, fun _ => none⟩ ["一二".data]) =
      some (googleApiError "一二".data) := by
  constructor
  · decide
  · simp [translate_all, longStringsOf, shortStringsOf, argosAll,
      translate_batch_with_google_api, batches128_cons, batches128_nil,
      recordGoogleBatch, dinsert, dlookup, googleApiError, String.data]

/-- C5 (amended): in the hybrid configuration (remote ready, threshold
`T > 0`), a string of length `≥ T` is routed to the batch remote capability
(its entry is the one produced by the batch call on the long strings), a
string of length in `[3, T)` is routed to the local capability individually
(its entry is its Argos result), and a string of length `< 3` that is also
below the threshold is routed to neither and receives no entry.  (For
`T ≤ 2`, a string of length `< 3` but `≥ T` goes to the remote capability,
not to neither — this is where the original claim fails.) -/
theorem c5_threshold_partition :
    ∀ (cfg : TransCfg) (strings : List Str) (s : Str),
      cfg.google_translate_ready = true → 0 < cfg.threshold → s ∈ strings →
      (cfg.threshold ≤ (s.length : Int) →
        s ∈ longStringsOf cfg strings ∧ s ∉ shortStringsOf cfg strings ∧
        dlookup s (translate_all cfg strings) =
          dlookup s (translate_batch_with_google_api cfg
            (longStringsOf cfg strings))) ∧
      (3 ≤ s.length → (s.length : Int) < cfg.threshold →
        s ∈ shortStringsOf cfg strings ∧ s ∉ longStringsOf cfg strings ∧
        dlookup s (translate_all cfg strings) =
          some (translate_with_argos cfg s)) ∧
      (s.length < 3 → (s.length : Int) < cfg.threshold →
        s ∉ longStringsOf cfg strings ∧ s ∉ shortStringsOf cfg strings ∧
        dlookup s (translate_all cfg strings) = none) :=
  fun _ _ _ hready hpos hs => translate_all_hybrid_lookup hready hpos hs

/-- C5 (witness): with threshold 5, strings of length 5, 4, 3, 2 go to
remote, local, local, untranslated respectively. -/
theorem c5_threshold_partition_witness :
    "一二三四五".data ∈ longStringsOf
      ⟨5, true, true, fun _ => none, fun _ => none⟩
      ["一二三四五".data, "一二三四".data, "一二三".data, "一二".data] ∧
    "一二三四".data ∈ shortStringsOf
      ⟨5, true, true, fun _ => none, fun _ => none⟩
      ["一二三四五".data, "一二三四".data, "一二三".data, "一二".data] ∧
    "一二三".data ∈ shortStringsOf
      ⟨5, true, true, fun _ => none, fun _ => none⟩
      ["一二三四五".data, "一二三四".data, "一二三".data, "一二".data] ∧
    "一二".data ∉ longStringsOf
      ⟨5, true, true, fun _ => none, fun _ => none⟩
      ["一二三四五".data, "一二三四".data, "一二三".data, "一二".data] ∧
    "一二".data ∉ shortStringsOf
      ⟨5, true, true, fun _ => none, fun _ => none⟩
      ["一二三四五".data, "一二三四".data, "一二三".data, "一二".data] ∧
    dlookup "一二".data (translate_all
      ⟨5, true, true, fun _ => none, fun _ => none⟩
      ["一二三四五".data, "一二三四".data, "一二三".data, "一二".data]) = none := by
  have hp := c5_threshold_partition
    ⟨5, true, true, fun _ => none, fun _ => none⟩
    ["一二三四五".data, "一二三四".data, "一二三".data, "一二".data]
  have h2 := (hp "一二".data rfl (by decide) (by decide)).2.2 (by decide) (by decide)
  exact ⟨((hp "一二三四五".data rfl (by decide) (by decide)).1 (by decide)).1,
    ((hp "一二三四".data rfl (by decide) (by decide)).2.1 (by decide) (by decide)).1,
    ((hp "一二三".data rfl (by decide) (by decide)).2.1 (by decide) (by decide)).1,
    h2.1, h2.2.1, h2.2.2⟩

/-- C4 (counterexample): with threshold 5 and the remote capability ready,
the length-2 input `"你好"` receives no entry at all in the result of
`translate_all` — total coverage fails on the hybrid path. -/
theorem c4_counterexample :
    dlookup "你好".data (translate_all
      ⟨5, true, true, fun _ => none, fun _ => none⟩ ["你好".data]) = none := by
  rfl

/-- C4 (amended): `translate_all` covers every input string on the
threshold `-1` path, the threshold `0` remote path (given parallel batch
responses) and the local fallback path; on the hybrid path (remote ready,
`T > 0`) every string of length `≥ 3` or `≥ T` receives an entry, and a
string of length `< 3` that is also below the threshold receives none. -/
theorem c4_translation_coverage :
    ∀ (cfg : TransCfg) (strings : List Str) (s : Str), s ∈ strings →
      (∀ b outs, cfg.googleBatch b = some outs → outs.length = b.length) →
      ((¬(cfg.google_translate_ready = true ∧ 0 < cfg.threshold) →
          (dlookup s (translate_all cfg strings)).isSome = true) ∧
       (cfg.threshold = -1 →
          (dlookup s (translate_all cfg strings)).isSome = true) ∧
       (cfg.google_translate_ready = true → 0 < cfg.threshold →
          ((3 ≤ s.length ∨ cfg.threshold ≤ (s.length : Int)) →
            (dlookup s (translate_all cfg strings)).isSome = true) ∧
          (s.length < 3 → (s.length : Int) < cfg.threshold →
            dlookup s (translate_all cfg strings) = none))) := by
  intro cfg strings s hs hpar
  have hneg1 : cfg.threshold = -1 →
      (dlookup s (translate_all cfg strings)).isSome = true := by
    intro h1
    rw [translate_all, if_pos h1, dlookup_argosAll_of_mem hs]
    rfl
  refine ⟨?_, hneg1, ?_⟩
  · intro hno
    by_cases h1 : cfg.threshold = -1
    · exact hneg1 h1
    · rw [translate_all, if_neg h1]
      by_cases h2 : cfg.threshold = 0 ∧ cfg.google_translate_ready
      · rw [if_pos h2]
        exact dlookup_translate_batch_isSome hpar hs
      · rw [if_neg h2, if_neg (by
          rintro ⟨hr, hp⟩
          exact hno ⟨hr, hp⟩), dlookup_argosAll_of_mem hs]
        rfl
  · intro hready hpos
    have hh := translate_all_hybrid_lookup hready hpos hs
    constructor
    · intro hor
      by_cases hT : cfg.threshold ≤ (s.length : Int)
      · have h1 := hh.1 hT
        rw [h1.2.2]
        exact dlookup_translate_batch_isSome hpar h1.1
      · have h3 : 3 ≤ s.length := by
          rcases hor with h | h
          · exact h
          · exact absurd h hT
        have h2 := hh.2.1 h3 (by omega)
        rw [h2.2.2]
        rfl
    · intro hsm hlt
      exact (hh.2.2 hsm hlt).2.2

/-- C4 (witness): a length-3 string in the hybrid configuration receives an
entry. -/
theorem c4_translation_coverage_witness :
    "一二三".data ∈ ["一二三".data] ∧
    (dlookup "一二三".data (translate_all
      ⟨5, true, true, fun _ => none, fun _ => none⟩ ["一二三".data])).isSome = true := by
  refine ⟨by decide, ?_⟩
  exact ((c4_translation_coverage _ _ _ (by decide)
    (fun b outs h => by cases h)).2.2 rfl (by decide)).1 (Or.inl (by decide))

/-- C7: every string returned by the extraction routine is nonempty,
consists only of characters from the three CJK ranges, whitespace and the
Chinese punctuation `，。、：；！？`, contains at least one CJK character,
carries no leading or trailing whitespace, and contains no Latin letter;
the empty input yields the empty set. -/
theorem c7_extraction_character_classes :
    (∀ (content : Str) (s : Str), s ∈ extract_chinese_strings content →
      s ≠ [] ∧
      (∀ a ∈ s, isCJKChar a = true ∨ isRegexSpace a = true ∨
        isChinesePunct a = true) ∧
      (∃ a ∈ s, isCJKChar a = true) ∧
      (∀ hd, s.head? = some hd → isStripSpace hd = false) ∧
      (∀ lst, s.getLast? = some lst → isStripSpace lst = false) ∧
      (∀ a ∈ s, isLatinLetter a = false)) ∧
    extract_chinese_strings [] = [] := by
  constructor
  · intro content s hs
    unfold extract_chinese_strings at hs
    rw [List.mem_dedup, List.mem_filter] at hs
    obtain ⟨hmem, hpred⟩ := hs
    simp only [Bool.and_eq_true, Bool.not_eq_eq_eq_not, Bool.not_true,
      decide_eq_true_eq, List.any_eq_true] at hpred
    obtain ⟨⟨hne0, _⟩, hany⟩ := hpred
    have hne : s ≠ [] := fun hc => by simp [hc] at hne0
    rcases List.mem_map.mp hmem with ⟨m, hm, rfl⟩
    rw [List.mem_dedup, List.mem_append] at hm
    have hphrase : ∀ a ∈ pyStrip m, isPhraseChar a = true := by
      intro a ha
      have ham := mem_pyStrip ha
      rcases hm with hm1 | hm2
      · exact (mem_findPattern1 hm1).2.1 a ham
      · have hcjk := (mem_findPattern2 hm2).2 a ham
        rw [isPhraseChar, hcjk]
        rfl
    refine ⟨hne, ?_, ?_, ?_, ?_, ?_⟩
    · intro a ha
      have := hphrase a ha
      rw [isPhraseChar, Bool.or_eq_true, Bool.or_eq_true] at this
      tauto
    · exact hany
    · exact fun hd hhd => pyStrip_head_not_space hhd
    · exact fun lst hlst => pyStrip_last_not_space hlst
    · exact fun a ha => isPhraseChar_not_latin (hphrase a ha)
  · simp [extract_chinese_strings, findPattern1, findPattern2]

/-- C7 (witness): extraction of `"你好a"` yields the string `"你好"`, whose
characters are all CJK and none of which is a Latin letter. -/
theorem c7_extraction_character_classes_witness :
    "你好".data ∈ extract_chinese_strings "你好a".data ∧
    (∀ a ∈ "你好".data, isLatinLetter a = false) := by
  have hmem : "你好".data ∈ extract_chinese_strings "你好a".data := by
    simp [extract_chinese_strings, findPattern1, findPattern2, takeToLastCJK,
      isCJKChar, isPhraseChar, isChinesePunct, chinesePunctChars, isRegexSpace,
      isStripSpace, pyStrip, String.data, List.dedup, List.filter]
  exact ⟨hmem,
    (c7_extraction_character_classes.1 "你好a".data "你好".data hmem).2.2.2.2.2⟩
